import Mathlib

/-!
# fsCpy: the tree-copy engine of `main.go`

A shallow embedding of the copy engine of `src/main.go` (`fixPath`, `actualCopy`,
`IsDirectory`, `Exists`, `doCopy`, the `atomicInt` job counter) together with a small
model of the operating-system calls the engine makes.

Conventions of the embedding:

* a Go `string` is a sequence of bytes; it is modelled as `List Char`, one character per
  byte.  The separator `"\\"` of the source is the single character `sep`;
* the file system is an association list from canonical path names to nodes.  The system
  calls canonicalise the name they are given: doubled separators count once and trailing
  separators are ignored (`C:\\note.txt` and `C:\note.txt` name one file, `C:\dst\` names the
  node `C:\dst`), so two different strings can name one file;
* `log.Fatal` (process exit), a Go run-time panic (slice bounds out of range) and a loop that
  never ends are the abnormal outcomes of `Outcome`;
* `go actualCopy(...)` is modelled twice: `doCopy` runs every job to its end as soon as it is
  started (one schedule, enough to say what a run leaves on disk and in the counter), and
  `Sched` is the step relation of the launch loop, the drain loop and the running jobs under
  every interleaving;
* console output (`currentArgs.verbose`) is not modelled.
-/

namespace FsCpy

/-! ## Strings and paths -/

/-- A Go string: a sequence of bytes, one `Char` per byte. -/
abbrev Path := List Char

/-- The path separator written `"\\"` in the source. -/
def sep : Char := '\\'

/-- Helper of `LastIndex`: scans the string from position `i`, remembering in `acc` the last
position at which the separator was seen. -/
def lastIndexFrom : Path → Nat → Int → Int
  | [], _, acc => acc
  | c :: cs, i, acc => lastIndexFrom cs (i + 1) (if c = sep then (i : Int) else acc)

/-- Go `strings.LastIndex(s, "\\")`: the index of the last separator of `s`, `-1` when `s`
has none. -/
def LastIndex (s : Path) : Int := lastIndexFrom s 0 (-1)

/-- Go `strings.HasSuffix(s, "\\")`. -/
def HasSuffix (s : Path) : Bool := s.getLast? == some sep

/-- Go slice expression `s[:hi]`; `none` is the run-time panic "slice bounds out of range". -/
def sliceTo (s : Path) (hi : Int) : Option Path :=
  if 0 ≤ hi ∧ hi ≤ (s.length : Int) then some (s.take hi.toNat) else none

/-- Go slice expression `s[lo:]`; `none` is the run-time panic "slice bounds out of range". -/
def sliceFrom (s : Path) (lo : Nat) : Option Path :=
  if lo ≤ s.length then some (s.drop lo) else none

/-! ## The file system -/

/-- A node of the file system: a regular file with its bytes, or a directory with its
permission bits. -/
inductive Node where
  | file (data : List Nat)
  | dir (perm : Nat)
  deriving DecidableEq, Repr

/-- The file system: canonical path names and the node each one names. -/
abbrev FS := List (Path × Node)

/-- Drops the trailing separators of a reversed path. -/
def dropSeps : Path → Path
  | [] => []
  | c :: cs => if c = sep then dropSeps cs else c :: cs

/-- The path without its trailing separators. -/
def resolve (p : Path) : Path := (dropSeps p.reverse).reverse

/-- Removes every separator that directly follows a separator. -/
def collapse : Path → Path
  | [] => []
  | [c] => [c]
  | c :: d :: cs => if c = sep ∧ d = sep then collapse (d :: cs) else c :: collapse (d :: cs)

/-- The name under which the operating system looks a path up: doubled separators count
once and trailing separators are dropped.  Two strings with the same canonical name are the
same file. -/
def canon (p : Path) : Path := resolve (collapse p)

/-- The `os.Stat` of the model: the node a path names, `none` when nothing is there
(the error for which `os.IsNotExist` holds; `os.Stat` fails in no other way here).  A name
that ends with a separator names directories only.  Two names are the same node exactly
when their canonical names agree: the model has no links, no `.` elements and no case
folding. -/
def stat (fs : FS) (p : Path) : Option Node :=
  match fs.lookup (canon p) with
  | some (Node.file data) => if HasSuffix p then none else some (Node.file data)
  | r => r

/-- `IsDirectory` of `main.go`: `false` when `os.Stat` reports that the path does not exist,
otherwise whether the node found is a directory. -/
def IsDirectory (fs : FS) (path : Path) : Bool :=
  match stat fs path with
  | none => false
  | some (Node.dir _) => true
  | some (Node.file _) => false

/-- `Exists` of `main.go`: `os.Stat` did not fail with a does-not-exist error. -/
def Exists (fs : FS) (path : Path) : Bool := (stat fs path).isSome

/-! ## The path remapper -/

/-- `fixPath` of `main.go`.  The parameters keep the names of the source: `path` is the
destination root (`to` of the caller), `fromBase` the source root, `from` the path being
remapped (`fromPath` here, as `from` is a keyword of Lean; likewise `toPath` for `to`
below).  `none` is a run-time panic of one of the three slice expressions. -/
def fixPath (fs : FS) (path fromBase fromPath : Path) : Option Path :=
  if !IsDirectory fs path then some path
  else
    let base : Option Path :=
      if fromBase = fromPath then sliceTo fromPath (LastIndex fromPath) else some fromBase
    match base with
    | none => none
    | some fromBase =>
      if HasSuffix path then
        match sliceFrom fromPath fromBase.length with
        | none => none
        | some rest => some (path ++ rest)
      else
        match sliceFrom fromPath (fromBase.length + 1) with
        | none => none
        | some rest => some (path ++ sep :: rest)

/-! ## Outcomes and the state of a run -/

/-- How a piece of the program ends: normally with a value, by `log.Fatal` (the process
exits), by a Go run-time panic, by polling a counter that nobody will change any more, or,
for the two recursive definitions of the model, by using up the recursion budget. -/
inductive Outcome (α : Type) where
  | ok (a : α)
  | fatal
  | panic
  | spin
  | outOfFuel
  deriving DecidableEq, Repr

/-- A successful system call that touches a file or a directory. -/
inductive Op where
  | opened (p : Path)
  | created (p : Path)
  | wrote (p : Path) (n : Nat)
  | mkdir (p : Path) (perm : Nat)
  deriving DecidableEq, Repr

/-- The state a run works on: the file system, the global `count` (an `int32` in the source,
an `Int` here: a run moves it by a handful of units around zero) and the record of the
successful system calls made so far. -/
structure World where
  fs : FS
  count : Int
  ops : List Op
  deriving DecidableEq, Repr

/-- `BufferSize` of `main.go`. -/
def BufferSize : Nat := 128000

/-- `MaxJobs` of `main.go`, for a machine on which `runtime.NumCPU()` is `numCPU`. -/
def MaxJobs (numCPU : Nat) : Int := (numCPU : Int) * 4

/-- `count.inc()`. -/
def World.inc (w : World) : World := { w with count := w.count + 1 }

/-- `count.dec()`. -/
def World.dec (w : World) : World := { w with count := w.count - 1 }

/-! ## System calls -/

/-- Replaces the node stored under a name, or adds the name at the end. -/
def setNode (k : Path) (v : Node) : FS → FS
  | [] => [(k, v)]
  | (k', v') :: rest => if k' = k then (k, v) :: rest else (k', v') :: setNode k v rest

/-- Whether the directory that is to hold `p` exists: the part of `p` before its last
separator must name a directory; a name without separator lies in the current directory. -/
def parentOk (fs : FS) (p : Path) : Bool :=
  match sliceTo (canon p) (LastIndex (canon p)) with
  | none => true
  | some parent => IsDirectory fs parent

/-- `os.Open(p)`: `none` is the does-not-exist error; otherwise the call succeeds (also on a
directory) and is recorded. -/
def osOpen (w : World) (p : Path) : Option World :=
  match stat w.fs p with
  | none => none
  | some _ => some { w with ops := w.ops ++ [Op.opened p] }

/-- `os.Create(p)`: creates the file that `p` names or truncates it, under whatever other
name the file is also reached.  `none` is an error: the name ends with a separator, names a
directory, or lies in a directory that does not exist. -/
def osCreate (w : World) (p : Path) : Option World :=
  if HasSuffix p || IsDirectory w.fs p || !parentOk w.fs p then none
  else some { w with fs := setNode (canon p) (Node.file []) w.fs,
                     ops := w.ops ++ [Op.created p] }

/-- One `source.Read(buffer)` at offset `off` with a buffer of `size` bytes: `none` is a read
error (the handle is a directory, or the file is gone), `some []` is `io.EOF`, otherwise the
next bytes of the file, at most `size` of them. -/
def osRead (fs : FS) (p : Path) (off size : Nat) : Option (List Nat) :=
  match stat fs p with
  | some (Node.file data) => some ((data.drop off).take size)
  | _ => none

/-- One `target.Write(bytes)` through a handle that `os.Create` returned and that is written
only by this loop: the bytes go to the end of the file. -/
def osWrite (w : World) (p : Path) (bytes : List Nat) : Option World :=
  match stat w.fs p with
  | some (Node.file data) =>
    some { w with fs := setNode (canon p) (Node.file (data ++ bytes)) w.fs,
                  ops := w.ops ++ [Op.wrote p bytes.length] }
  | _ => none

/-- `os.Mkdir(p, perm)`: `none` is an error: something is there already, or the directory
that is to hold `p` does not exist. -/
def osMkdir (w : World) (p : Path) (perm : Nat) : Option World :=
  if Exists w.fs p || !parentOk w.fs p then none
  else some { w with fs := w.fs ++ [(canon p, Node.dir perm)],
                     ops := w.ops ++ [Op.mkdir p perm] }

/-! ## The single-file copy -/

/-- The `for` loop of `actualCopy`: read a chunk, stop at `io.EOF`, write the chunk.  `off` is
the read offset of the source handle.  `fuel` bounds the number of rounds. -/
def copyLoop (toPath fromPath : Path) : Nat → Nat → World → Outcome World
  | 0, _, _ => Outcome.outOfFuel
  | fuel + 1, off, w =>
    match osRead w.fs fromPath off BufferSize with
    | none => Outcome.fatal
    | some [] => Outcome.ok w
    | some (b :: bs) =>
      match osWrite w toPath (b :: bs) with
      | none => Outcome.fatal
      | some w1 => copyLoop toPath fromPath fuel (off + (b :: bs).length) w1

/-- The number of bytes of the file a path names (`0` for anything else). -/
def fileSize (fs : FS) (p : Path) : Nat :=
  match stat fs p with
  | some (Node.file data) => data.length
  | _ => 0

/-- `actualCopy` of `main.go`.  The loop gets one round per byte of the source plus one for
the `io.EOF`, which is more than it can use. -/
def actualCopy (w : World) (toPath fromPath : Path) : Outcome World :=
  if toPath = fromPath then Outcome.ok w.dec
  else
    match osOpen w fromPath with
    | none => Outcome.ok w.dec
    | some w1 =>
      match osCreate w1 toPath with
      | none => Outcome.fatal
      | some w2 =>
        match copyLoop toPath fromPath (fileSize w.fs fromPath + 1) 0 w2 with
        | Outcome.ok w3 => Outcome.ok w3.dec
        | e => e

/-! ## The tree walk -/

/-- `props` of `main.go`: one queued copy job (the fields `to` and `from` of the source). -/
structure props where
  toPath : Path
  fromPath : Path
  deriving DecidableEq, Repr

/-- What the closure passed to `filepath.Walk` captures and changes: the world and the list
`files`. -/
structure WalkState where
  w : World
  files : List props
  deriving DecidableEq, Repr

/-- The closure that `doCopy` passes to `filepath.Walk`.  `info` is `none` when `Walk` could
not stat the entry (the closure is then called with `err != nil` and returns that error,
which ends the walk and makes `doCopy` call `log.Fatal`).  Otherwise: skip the root, remap,
create a missing directory, queue a file. -/
def walkFn (toPath fromPath : Path) (st : WalkState) (path : Path) (info : Option Node) :
    Outcome WalkState :=
  if path = fromPath then Outcome.ok st
  else
    match info with
    | none => Outcome.fatal
    | some node =>
      match fixPath st.w.fs toPath fromPath path with
      | none => Outcome.panic
      | some newPath =>
        match node with
        | Node.dir perm =>
          if !Exists st.w.fs newPath then
            match osMkdir st.w newPath perm with
            | none => Outcome.fatal
            | some w1 => Outcome.ok { st with w := w1 }
          else Outcome.ok st
        | Node.file _ =>
          Outcome.ok { st with files := st.files ++ [{ toPath := newPath, fromPath := path }] }

/-- Byte-wise lexical order of two names, the order of Go `sort.Strings`. -/
def nameLe : Path → Path → Bool
  | [], _ => true
  | _ :: _, [] => false
  | a :: as, b :: bs => if a = b then nameLe as bs else decide (a.toNat < b.toNat)

/-- Inserts a name into a sorted list of names. -/
def insertName (n : Path) : List Path → List Path
  | [] => [n]
  | m :: ms => if nameLe n m then n :: m :: ms else m :: insertName n ms

/-- The name of `k` inside the directory `dir`, when `k` is an entry of that directory:
`k` is the canonical name of `dir`, a separator, and a non-empty name without separator. -/
def childName (dir k : Path) : Option Path :=
  let base := canon dir ++ [sep]
  if base.isPrefixOf k then
    let name := k.drop base.length
    if name ≠ [] ∧ sep ∉ name then some name else none
  else none

/-- The sorted names of the entries of a directory (`readDirNames` of `path/filepath`). -/
def readDirNames (fs : FS) (dir : Path) : List Path :=
  (fs.filterMap (fun e => childName dir e.1)).foldr insertName []

/-- `filepath.Join(dir, name)` for an entry name and a directory name that is clean up to
trailing separators (no `.` or `..` element, no doubled or forward separator, not a bare
volume name): the cleaned directory, one separator, the name. -/
def Join (dir name : Path) : Path := resolve dir ++ sep :: name

/-- Runs `f` over a list, threading the state, and stops at the first abnormal outcome. -/
def forEach {α σ : Type} (f : α → σ → Outcome σ) : List α → σ → Outcome σ
  | [], s => Outcome.ok s
  | a :: as, s =>
    match f a s with
    | Outcome.ok s1 => forEach f as s1
    | e => e

/-- The recursion `walk` of Go `path/filepath`, with the closure of `doCopy` as its `walkFn`:
a file is handed to the closure; of a directory the names are read first, then the closure is
called, then the entries are walked in order, an entry that cannot be stat-ed being handed
to the closure with the error.  `fuel` bounds the depth. -/
def walk (toPath fromPath : Path) : Nat → Path → Node → WalkState → Outcome WalkState
  | 0, _, _, _ => Outcome.outOfFuel
  | fuel + 1, path, info, st =>
    match info with
    | Node.file _ => walkFn toPath fromPath st path (some info)
    | Node.dir _ =>
      let names := readDirNames st.w.fs path
      match walkFn toPath fromPath st path (some info) with
      | Outcome.ok st1 =>
        forEach (fun name s =>
          match stat s.w.fs (Join path name) with
          | none => walkFn toPath fromPath s (Join path name) none
          | some fileInfo => walk toPath fromPath fuel (Join path name) fileInfo s) names st1
      | e => e

/-- Go `filepath.Walk(root, fn)` with the closure of `doCopy` as `fn`: when the root cannot be
stat-ed the closure is called once with the error, otherwise the tree is walked. -/
def Walk (toPath fromPath : Path) (fuel : Nat) (st : WalkState) : Outcome WalkState :=
  match stat st.w.fs fromPath with
  | none => walkFn toPath fromPath st fromPath none
  | some info => walk toPath fromPath fuel fromPath info st

/-! ## The dispatcher -/

/-- The launch loop of `doCopy` under the schedule in which every goroutine runs to its end
as soon as it is started: `count.inc()`, poll until `count <= MaxJobs` (with no job running
nobody lowers the counter, so a counter above the ceiling is polled for ever), then the job. -/
def launchAll (maxJobs : Int) : List props → World → Outcome World :=
  forEach (fun e w =>
    if w.inc.count > maxJobs then Outcome.spin else actualCopy w.inc e.toPath e.fromPath)

/-- The drain loop of `doCopy` once no job is running: it returns when `count > 0` fails. -/
def drain (w : World) : Outcome World :=
  if w.count > 0 then Outcome.spin else Outcome.ok w

/-- `doCopy` of `main.go`; `fuel` bounds the depth of the walk and `maxJobs` is the value of
the global `MaxJobs`. -/
def doCopy (fuel : Nat) (maxJobs : Int) (w : World) (toPath fromPath : Path) : Outcome World :=
  if !Exists w.fs fromPath || toPath = fromPath then Outcome.ok w
  else if IsDirectory w.fs fromPath then
    match Walk toPath fromPath fuel { w := w, files := [] } with
    | Outcome.ok st =>
      match launchAll maxJobs st.files st.w with
      | Outcome.ok w1 => drain w1
      | e => e
    | Outcome.fatal => Outcome.fatal
    | Outcome.panic => Outcome.panic
    | Outcome.spin => Outcome.spin
    | Outcome.outOfFuel => Outcome.outOfFuel
  else
    match fixPath w.fs toPath fromPath fromPath with
    | none => Outcome.panic
    | some newPath => actualCopy w newPath fromPath

/-- The copy jobs that the walk of `doCopy(to, from)` queues, in queue order: the list `files`
at the end of `filepath.Walk`. -/
def queuedJobs (fuel : Nat) (w : World) (toPath fromPath : Path) : Outcome (List props) :=
  match Walk toPath fromPath fuel { w := w, files := [] } with
  | Outcome.ok st => Outcome.ok st.files
  | Outcome.fatal => Outcome.fatal
  | Outcome.panic => Outcome.panic
  | Outcome.spin => Outcome.spin
  | Outcome.outOfFuel => Outcome.outOfFuel

/-! ### The dispatcher with jobs that run concurrently -/

/-- The state of the launch and drain loops of `doCopy` together with the goroutines they
started: `queued` jobs are still in the list, `admitted` tells that `count.inc()` has been
executed for the front job and the loop polls for `count <= MaxJobs`, `running` goroutines
have been started and have not reached their `count.dec()`, `count` is the global counter,
`returned` tells that the drain loop has seen the counter at zero or below. -/
structure Sched where
  queued : Nat
  admitted : Bool
  running : Nat
  count : Int
  returned : Bool
  deriving DecidableEq, Repr

/-- The atomic steps of the dispatcher and of its jobs. -/
inductive Event where
  | inc
  | launch
  | finish
  | drained
  deriving DecidableEq, Repr

/-- One atomic step; `none` when the step is not enabled in the state.
`inc`: the launch loop takes the next job and executes `count.inc()`;
`launch`: the poll sees `count <= MaxJobs` and `go actualCopy(...)` starts the job;
`finish`: a running job reaches the `count.dec()` with which `actualCopy` ends;
`drained`: all jobs are launched and the drain loop sees `count > 0` fail. -/
def Sched.step (maxJobs : Int) (s : Sched) : Event → Option Sched
  | Event.inc =>
    if !s.returned && !s.admitted && decide (0 < s.queued) then
      some { s with admitted := true, count := s.count + 1 }
    else none
  | Event.launch =>
    if !s.returned && s.admitted && decide (s.count ≤ maxJobs) then
      some { s with admitted := false, queued := s.queued - 1, running := s.running + 1 }
    else none
  | Event.finish =>
    if decide (0 < s.running) then
      some { s with running := s.running - 1, count := s.count - 1 }
    else none
  | Event.drained =>
    if !s.returned && !s.admitted && decide (s.queued = 0) && decide (s.count ≤ 0) then
      some { s with returned := true }
    else none

/-- Runs a sequence of steps; `none` when one of them is not enabled. -/
def Sched.run (maxJobs : Int) : Sched → List Event → Option Sched
  | s, [] => some s
  | s, e :: es =>
    match s.step maxJobs e with
    | none => none
    | some s1 => Sched.run maxJobs s1 es

/-- The dispatcher about to start on `n` queued jobs, the counter at zero. -/
def Sched.init (n : Nat) : Sched :=
  { queued := n, admitted := false, running := 0, count := 0, returned := false }

/-! ## Predicates used in the statements and proofs -/

/-- A path that `filepath.Walk` visits below or at the root `fromPath`. -/
def Visited (fromPath path : Path) : Prop :=
  path = fromPath ∨ ∃ rel, path = fromPath ++ sep :: rel

/-- What the walk of `doCopy(toPath, fromPath)` maintains when `toPath` is a directory:
`toPath` stays a directory and every queued job copies `fromPath\rel` to `toPath\rel`. -/
def WalkInv (toPath fromPath : Path) (st : WalkState) : Prop :=
  IsDirectory st.w.fs toPath = true ∧
  ∀ j ∈ st.files, ∃ rel, j.fromPath = fromPath ++ sep :: rel ∧ j.toPath = toPath ++ sep :: rel

/-- The invariant of the dispatcher: the counter counts the running jobs plus the job that
the launch loop has admitted and not yet launched, and no more than `maxJobs` jobs run. -/
def Sched.Inv (maxJobs : Int) (s : Sched) : Prop :=
  s.count = (s.running : Int) + (if s.admitted then 1 else 0) ∧ (s.running : Int) ≤ maxJobs

/-- The dispatcher invariant together with what holds once the drain loop has returned:
nothing runs, nothing is queued or admitted, and the counter is zero. -/
def Sched.DrainInv (maxJobs : Int) (s : Sched) : Prop :=
  Sched.Inv maxJobs s ∧
  (s.returned = true → s.running = 0 ∧ s.admitted = false ∧ s.queued = 0 ∧ s.count = 0)

/-! ## Example inputs -/

/-- The bytes of a string literal, as a path. -/
def P (s : String) : Path := s.toList

/-- A drive with the tree `C:\src` (the file `a.txt` of 5 bytes, the directory `sub` with the
empty file `b.txt`) and the empty directory `C:\dst`. -/
def treeFs : FS :=
  [(P "C:", Node.dir 511),
   (P "C:\\src", Node.dir 493),
   (P "C:\\src\\a.txt", Node.file [104, 101, 108, 108, 111]),
   (P "C:\\src\\sub", Node.dir 448),
   (P "C:\\src\\sub\\b.txt", Node.file []),
   (P "C:\\dst", Node.dir 493)]

/-- A drive with the file `C:\note.txt` and the directory `C:\backup`. -/
def noteFs : FS :=
  [(P "C:", Node.dir 511),
   (P "C:\\note.txt", Node.file [104, 105]),
   (P "C:\\backup", Node.dir 493)]

/-- A drive with the directory `C:\src` holding the two files `a.txt` and `b.txt`; nothing is
called `C:\new`. -/
def twoFilesFs : FS :=
  [(P "C:", Node.dir 511),
   (P "C:\\src", Node.dir 493),
   (P "C:\\src\\a.txt", Node.file [1]),
   (P "C:\\src\\b.txt", Node.file [2])]

/-- The drive `C:` with the single file `x.txt` in its root, and the directory `D:\dst`. -/
def driveFs : FS :=
  [(P "C:", Node.dir 511),
   (P "C:\\x.txt", Node.file [1]),
   (P "D:", Node.dir 511),
   (P "D:\\dst", Node.dir 493)]

/-- A world at the start of a run: the counter at zero, no system call made yet. -/
def start (fs : FS) : World := { fs := fs, count := 0, ops := [] }

/-! ## Lemmas: strings -/

theorem lastIndexFrom_noSep (name : Path) (h : sep ∉ name) (i : Nat) (acc : Int) :
    lastIndexFrom name i acc = acc := by
  induction name generalizing i acc with
  | nil => rfl
  | cons c cs ih =>
    have hc : c ≠ sep := fun e => h (by simp [e])
    have hcs : sep ∉ cs := fun e => h (by simp [e])
    simp [lastIndexFrom, hc, ih hcs]

theorem lastIndexFrom_append (parent name : Path) (h : sep ∉ name) (i : Nat) (acc : Int) :
    lastIndexFrom (parent ++ sep :: name) i acc = ((i + parent.length : Nat) : Int) := by
  induction parent generalizing i acc with
  | nil => simp [lastIndexFrom, lastIndexFrom_noSep name h]
  | cons c cs ih =>
    show lastIndexFrom (cs ++ sep :: name) (i + 1) _ = _
    rw [ih]
    simp only [List.length_cons]
    congr 1
    omega

theorem LastIndex_append (parent name : Path) (h : sep ∉ name) :
    LastIndex (parent ++ sep :: name) = (parent.length : Int) := by
  simp [LastIndex, lastIndexFrom_append parent name h]

theorem sliceTo_append (a b : Path) : sliceTo (a ++ b) (a.length : Int) = some a := by
  simp [sliceTo]

theorem sliceFrom_append (a b : Path) : sliceFrom (a ++ b) a.length = some b := by
  simp [sliceFrom]

theorem sliceFrom_append_sep (a b : Path) :
    sliceFrom (a ++ sep :: b) (a.length + 1) = some b := by
  have h : a ++ sep :: b = (a ++ [sep]) ++ b := by simp
  rw [h]
  have h2 : a.length + 1 = (a ++ [sep]).length := by simp
  rw [h2]
  exact sliceFrom_append _ _

theorem fixPath_notDir (fs : FS) (path fromBase fromPath : Path)
    (h : IsDirectory fs path = false) : fixPath fs path fromBase fromPath = some path := by
  simp [fixPath, h]

/-! ## Lemmas: the file system -/

theorem dropSeps_of_head (c : Char) (cs : Path) (h : c ≠ sep) : dropSeps (c :: cs) = c :: cs := by
  simp [dropSeps, h]

theorem resolve_of_noSuffix (p : Path) (h : HasSuffix p = false) : resolve p = p := by
  unfold resolve
  rcases hr : p.reverse with _ | ⟨c, cs⟩
  · have : p = [] := by simpa using hr
    simp [dropSeps, this]
  · have hp : p = (c :: cs).reverse := by rw [← hr, List.reverse_reverse]
    have hc : c ≠ sep := by
      intro e
      rw [hp] at h
      simp [HasSuffix, e] at h
    rw [dropSeps_of_head c cs hc, hp]

theorem lookup_setNode_same (k : Path) (v : Node) (fs : FS) :
    (setNode k v fs).lookup k = some v := by
  induction fs with
  | nil => simp [setNode, List.lookup]
  | cons e rest ih =>
    obtain ⟨k', v'⟩ := e
    by_cases hk : k' = k
    · simp [setNode, hk, List.lookup]
    · have hk2 : (k == k') = false := by simpa using fun e => hk e.symm
      simp [setNode, hk, List.lookup, hk2, ih]

theorem lookup_setNode_other (k q : Path) (v : Node) (fs : FS) (h : q ≠ k) :
    (setNode k v fs).lookup q = fs.lookup q := by
  induction fs with
  | nil =>
    have : (q == k) = false := by simpa using h
    simp [setNode, List.lookup, this]
  | cons e rest ih =>
    obtain ⟨k', v'⟩ := e
    by_cases hk : k' = k
    · subst hk
      have : (q == k') = false := by simpa using h
      simp [setNode, List.lookup, this]
    · by_cases hq : q = k'
      · simp [setNode, hk, List.lookup, hq]
      · have : (q == k') = false := by simpa using hq
        simp [setNode, hk, List.lookup, this, ih]

theorem stat_file (fs : FS) (p : Path) (data : List Nat) (h : stat fs p = some (Node.file data)) :
    HasSuffix p = false ∧ fs.lookup (canon p) = some (Node.file data) := by
  unfold stat at h
  cases hl : fs.lookup (canon p) with
  | none => simp [hl] at h
  | some n =>
    cases n with
    | dir perm => simp [hl] at h
    | file d =>
      simp only [hl] at h
      by_cases hs : HasSuffix p = true
      · simp [hs] at h
      · have hs2 : HasSuffix p = false := by simpa using hs
        simp only [hs2] at h
        exact ⟨hs2, by simpa using h⟩

theorem stat_of_lookup (fs : FS) (p : Path) (data : List Nat) (hs : HasSuffix p = false)
    (h : fs.lookup (canon p) = some (Node.file data)) : stat fs p = some (Node.file data) := by
  simp [stat, h, hs]

/-! ## Lemmas: the single-file copy -/

theorem take_min_length (l : List Nat) (n : Nat) : l.take n = l.take (min n l.length) := by
  rcases Nat.le_total n l.length with h | h
  · rw [Nat.min_eq_left h]
  · rw [Nat.min_eq_right h, List.take_of_length_le h, List.take_of_length_le (Nat.le_refl _)]

theorem copyLoop_spec (toPath fromPath : Path) (data : List Nat)
    (hne : canon toPath ≠ canon fromPath)
    (hto : HasSuffix toPath = false) (hfrom : HasSuffix fromPath = false) :
    ∀ (fuel off : Nat) (w : World),
      w.fs.lookup (canon fromPath) = some (Node.file data) →
      w.fs.lookup (canon toPath) = some (Node.file (data.take off)) →
      data.length - off < fuel →
      ∃ w', copyLoop toPath fromPath fuel off w = Outcome.ok w' ∧
        w'.fs.lookup (canon fromPath) = some (Node.file data) ∧
        w'.fs.lookup (canon toPath) = some (Node.file data) ∧ w'.count = w.count := by
  intro fuel
  induction fuel with
  | zero => intro off w _ _ h; omega
  | succ fuel ih =>
    intro off w hsrc hdst hfuel
    have hread : osRead w.fs fromPath off BufferSize = some ((data.drop off).take BufferSize) := by
      simp [osRead, stat_of_lookup _ _ _ hfrom hsrc]
    rw [copyLoop, hread]
    rcases hc : (data.drop off).take BufferSize with _ | ⟨b, bs⟩
    · have hd : data.drop off = [] := by
        rcases hdd : data.drop off with _ | ⟨x, xs⟩
        · rfl
        · rw [hdd] at hc
          simp [BufferSize] at hc
      have hlen : data.length ≤ off := by simpa using hd
      refine ⟨w, rfl, hsrc, ?_, rfl⟩
      rw [hdst, List.take_of_length_le hlen]
    · have hw : osWrite w toPath (b :: bs) =
          some { w with fs := setNode (canon toPath) (Node.file (data.take off ++ (b :: bs))) w.fs,
                        ops := w.ops ++ [Op.wrote toPath (b :: bs).length] } := by
        simp [osWrite, stat_of_lookup _ _ _ hto hdst]
      simp only [hw]
      have hlen : (b :: bs).length ≤ data.length - off := by
        rw [← hc, List.length_take, List.length_drop]
        exact Nat.min_le_right _ _
      have hpos : 0 < (b :: bs).length := by simp
      have htake : data.take off ++ (b :: bs) = data.take (off + (b :: bs).length) := by
        rw [List.take_add]
        congr 1
        rw [← hc, List.length_take]
        exact take_min_length _ _
      obtain ⟨w', h1, h2, h3, h4⟩ := ih (off + (b :: bs).length)
        { w with fs := setNode (canon toPath) (Node.file (data.take off ++ (b :: bs))) w.fs,
                 ops := w.ops ++ [Op.wrote toPath (b :: bs).length] }
        (by simpa [lookup_setNode_other (canon toPath) (canon fromPath) _ _ (Ne.symm hne)] using hsrc)
        (by simp [lookup_setNode_same, htake])
        (by omega)
      exact ⟨w', h1, h2, h3, h4⟩

theorem copyLoop_count (toPath fromPath : Path) :
    ∀ (fuel off : Nat) (w w' : World),
      copyLoop toPath fromPath fuel off w = Outcome.ok w' → w'.count = w.count := by
  intro fuel
  induction fuel with
  | zero => intro off w w' h; simp [copyLoop] at h
  | succ fuel ih =>
    intro off w w' h
    rw [copyLoop] at h
    rcases hr : osRead w.fs fromPath off BufferSize with _ | ⟨_ | ⟨b, bs⟩⟩
    · simp [hr] at h
    · simp only [hr, Outcome.ok.injEq] at h
      rw [← h]
    · simp only [hr] at h
      rcases hw : osWrite w toPath (b :: bs) with _ | w1
      · simp [hw] at h
      · simp only [hw] at h
        have h1 := ih _ _ _ h
        rw [h1]
        unfold osWrite at hw
        split at hw
        · simp only [Option.some.injEq] at hw
          rw [← hw]
        · simp at hw

theorem actualCopy_count (w w' : World) (toPath fromPath : Path)
    (h : actualCopy w toPath fromPath = Outcome.ok w') : w'.count = w.count - 1 := by
  unfold actualCopy at h
  by_cases he : toPath = fromPath
  · simp only [he, if_true, Outcome.ok.injEq] at h
    rw [← h]; rfl
  · simp only [he, if_false] at h
    rcases ho : osOpen w fromPath with _ | w1
    · simp only [ho, Outcome.ok.injEq] at h
      rw [← h]; rfl
    · simp only [ho] at h
      have hw1 : w1.count = w.count := by
        unfold osOpen at ho
        split at ho
        · simp at ho
        · simp only [Option.some.injEq] at ho
          rw [← ho]
      rcases hc : osCreate w1 toPath with _ | w2
      · simp [hc] at h
      · simp only [hc] at h
        have hw2 : w2.count = w1.count := by
          unfold osCreate at hc
          split at hc
          · simp at hc
          · simp only [Option.some.injEq] at hc
            rw [← hc]
        rcases hl : copyLoop toPath fromPath (fileSize w.fs fromPath + 1) 0 w2 with w3 | _ | _ | _ | _
        · simp only [hl, Outcome.ok.injEq] at h
          have h3 := copyLoop_count _ _ _ _ _ _ hl
          rw [← h]
          show w3.count - 1 = w.count - 1
          rw [h3, hw2, hw1]
        all_goals simp [hl] at h

/-- A copy between two names of different files: `actualCopy` ends in `log.Fatal` exactly
when the destination cannot be created, and otherwise returns with the destination holding
the bytes of the source and the source unchanged. -/
theorem actualCopy_file (w : World) (toPath fromPath : Path) (data : List Nat)
    (hsrc : stat w.fs fromPath = some (Node.file data))
    (hne : canon toPath ≠ canon fromPath) :
    ((HasSuffix toPath = true ∨ IsDirectory w.fs toPath = true ∨ parentOk w.fs toPath = false) ∧
      actualCopy w toPath fromPath = Outcome.fatal) ∨
    ((HasSuffix toPath = false ∧ IsDirectory w.fs toPath = false ∧ parentOk w.fs toPath = true) ∧
      ∃ w', actualCopy w toPath fromPath = Outcome.ok w' ∧
        stat w'.fs toPath = some (Node.file data) ∧
        stat w'.fs fromPath = some (Node.file data)) := by
  have hstr : toPath ≠ fromPath := fun e => hne (by rw [e])
  obtain ⟨hfs, hfl⟩ := stat_file _ _ _ hsrc
  have hopen : osOpen w fromPath = some { w with ops := w.ops ++ [Op.opened fromPath] } := by
    simp [osOpen, hsrc]
  by_cases hc : (HasSuffix toPath || IsDirectory w.fs toPath || !parentOk w.fs toPath) = true
  · left
    refine ⟨?_, ?_⟩
    · simp only [Bool.or_eq_true, Bool.not_eq_true'] at hc
      tauto
    · simp [actualCopy, hstr, hopen, osCreate, hc]
  · right
    have hc2 : (HasSuffix toPath || IsDirectory w.fs toPath || !parentOk w.fs toPath) = false := by
      simpa using hc
    have hc3 : HasSuffix toPath = false ∧ IsDirectory w.fs toPath = false ∧
        parentOk w.fs toPath = true := by
      simp only [Bool.or_eq_false_iff, Bool.not_eq_false'] at hc2
      tauto
    refine ⟨hc3, ?_⟩
    have hsize : fileSize w.fs fromPath = data.length := by simp [fileSize, hsrc]
    obtain ⟨w3, h1, h2, h3, _⟩ := copyLoop_spec toPath fromPath data hne hc3.1 hfs
      (data.length + 1) 0
      { w with fs := setNode (canon toPath) (Node.file []) w.fs,
               ops := w.ops ++ [Op.opened fromPath] ++ [Op.created toPath] }
      (by simpa [lookup_setNode_other (canon toPath) (canon fromPath) _ _ (Ne.symm hne)] using hfl)
      (by simp [lookup_setNode_same])
      (by omega)
    refine ⟨w3.dec, ?_, ?_, ?_⟩
    · have h1' : copyLoop toPath fromPath (data.length + 1) 0
          { fs := setNode (canon toPath) (Node.file []) w.fs, count := w.count,
            ops := w.ops ++ [Op.opened fromPath, Op.created toPath] } = Outcome.ok w3 := by
        simpa using h1
      simp [actualCopy, hstr, hopen, osCreate, hc2, hsize, h1']
    · exact stat_of_lookup _ _ _ hc3.1 h3
    · exact stat_of_lookup _ _ _ hfs h2

/-- In file mode `doCopy` lowers the counter by one whenever it returns: it runs `actualCopy`
without a `count.inc()` before it. -/
theorem doCopy_file_mode_count (fuel : Nat) (maxJobs : Int) (w w' : World)
    (toPath fromPath : Path) (hex : Exists w.fs fromPath = true) (hne : toPath ≠ fromPath)
    (hnd : IsDirectory w.fs fromPath = false)
    (h : doCopy fuel maxJobs w toPath fromPath = Outcome.ok w') : w'.count = w.count - 1 := by
  simp only [doCopy, hex, hne, hnd, Bool.not_true, Bool.false_or, decide_False,
    Bool.false_eq_true, if_false] at h
  rcases hf : fixPath w.fs toPath fromPath fromPath with _ | newPath
  · simp [hf] at h
  · simp only [hf] at h
    exact actualCopy_count _ _ _ _ h

/-! ## Lemmas: the tree walk -/

theorem fixPath_descendant (fs : FS) (toPath fromPath rel : Path)
    (hdir : IsDirectory fs toPath = true) :
    fixPath fs toPath fromPath (fromPath ++ sep :: rel) = some (toPath ++ sep :: rel) := by
  have hne : fromPath ≠ fromPath ++ sep :: rel := by
    intro e
    have := congrArg List.length e
    simp at this
  by_cases hs : HasSuffix toPath = true
  · simp [fixPath, hdir, hne, hs, sliceFrom_append]
  · simp [fixPath, hdir, hne, hs, sliceFrom_append_sep]

theorem lookup_append_some (fs extra : FS) (k : Path) (v : Node) (h : fs.lookup k = some v) :
    (fs ++ extra).lookup k = some v := by
  induction fs with
  | nil => simp [List.lookup] at h
  | cons e rest ih =>
    obtain ⟨k', v'⟩ := e
    by_cases hk : (k == k') = true
    · simp only [List.cons_append, List.lookup, hk] at h ⊢
      exact h
    · have hk2 : (k == k') = false := by simpa using hk
      simp only [List.cons_append, List.lookup, hk2] at h ⊢
      exact ih h

theorem IsDirectory_append (fs extra : FS) (p : Path) (h : IsDirectory fs p = true) :
    IsDirectory (fs ++ extra) p = true := by
  unfold IsDirectory stat at *
  rcases hl : fs.lookup (canon p) with _ | ⟨d | perm⟩
  · simp [hl] at h
  · rw [hl] at h
    by_cases hs : HasSuffix p = true <;> simp [hs] at h
  · rw [lookup_append_some fs extra _ _ hl]

theorem osMkdir_IsDirectory (w w1 : World) (p q : Path) (perm : Nat)
    (hm : osMkdir w p perm = some w1) (h : IsDirectory w.fs q = true) :
    IsDirectory w1.fs q = true := by
  unfold osMkdir at hm
  split at hm
  · simp at hm
  · simp only [Option.some.injEq] at hm
    rw [← hm]
    exact IsDirectory_append _ _ _ h

theorem dropSeps_append (x y : Path) :
    dropSeps (x ++ y) = if dropSeps x = [] then dropSeps y else dropSeps x ++ y := by
  induction x with
  | nil => simp [dropSeps]
  | cons c cs ih =>
    by_cases hc : c = sep
    · simp [dropSeps, hc, ih]
    · simp [dropSeps, hc]

theorem dropSeps_suffix (x : Path) : ∃ t, x = t ++ dropSeps x := by
  induction x with
  | nil => exact ⟨[], rfl⟩
  | cons c cs ih =>
    by_cases hc : c = sep
    · obtain ⟨t, ht⟩ := ih
      refine ⟨c :: t, ?_⟩
      simp only [dropSeps, hc, if_true, List.cons_append]
      rw [← hc, ← ht]
    · exact ⟨[], by simp [dropSeps, hc]⟩

theorem resolve_append (a b : Path) (ha : HasSuffix a = false) :
    resolve (a ++ b) = a ++ resolve b := by
  have hra : (dropSeps a.reverse).reverse = a := resolve_of_noSuffix a ha
  unfold resolve
  rw [List.reverse_append, dropSeps_append]
  by_cases hb : dropSeps b.reverse = []
  · simp [hb, hra]
  · simp [hb]

theorem resolve_sep_cons (rel : Path) :
    resolve (sep :: rel) = [] ∨ ∃ r, resolve (sep :: rel) = sep :: r := by
  obtain ⟨t, ht⟩ := dropSeps_suffix (sep :: rel).reverse
  have h2 : sep :: rel = resolve (sep :: rel) ++ t.reverse := by
    have := congrArg List.reverse ht
    rw [List.reverse_reverse, List.reverse_append] at this
    exact this
  rcases hr : resolve (sep :: rel) with _ | ⟨c, cs⟩
  · exact Or.inl rfl
  · right
    rw [hr] at h2
    simp only [List.cons_append, List.cons.injEq] at h2
    exact ⟨cs, by rw [h2.1]⟩

theorem Join_visited (fromPath path name : Path) (hfrom : HasSuffix fromPath = false)
    (hp : Visited fromPath path) : ∃ rel, Join path name = fromPath ++ sep :: rel := by
  rcases hp with rfl | ⟨rel, rfl⟩
  · exact ⟨name, by simp [Join, resolve_of_noSuffix _ hfrom]⟩
  · unfold Join
    rw [resolve_append _ _ hfrom]
    rcases resolve_sep_cons rel with h | ⟨r, h⟩
    · exact ⟨name, by simp [h]⟩
    · exact ⟨r ++ sep :: name, by simp [h]⟩

theorem walkFn_inv (toPath fromPath path : Path) (info : Option Node) (st st' : WalkState)
    (hp : Visited fromPath path) (hinv : WalkInv toPath fromPath st)
    (h : walkFn toPath fromPath st path info = Outcome.ok st') :
    WalkInv toPath fromPath st' := by
  unfold walkFn at h
  by_cases hroot : path = fromPath
  · simp only [hroot, if_true, Outcome.ok.injEq] at h
    rw [← h]; exact hinv
  · simp only [hroot, if_false] at h
    rcases hp with hp | ⟨rel, hrel⟩
    · exact absurd hp hroot
    rcases info with _ | info
    · simp at h
    · simp only at h
      rw [hrel, fixPath_descendant _ _ _ _ hinv.1] at h
      cases info with
      | dir perm =>
        simp only at h
        by_cases hex : (!Exists st.w.fs (toPath ++ sep :: rel)) = true
        · simp only [hex, if_true] at h
          rcases hm : osMkdir st.w (toPath ++ sep :: rel) perm with _ | w1
          · simp [hm] at h
          · simp only [hm, Outcome.ok.injEq] at h
            rw [← h]
            exact ⟨osMkdir_IsDirectory _ _ _ _ _ hm hinv.1, hinv.2⟩
        · simp only [hex, Bool.false_eq_true, if_false, Outcome.ok.injEq] at h
          rw [← h]; exact hinv
      | file data =>
        simp only [Outcome.ok.injEq] at h
        rw [← h]
        refine ⟨hinv.1, fun j hj => ?_⟩
        simp only [List.mem_append, List.mem_singleton] at hj
        rcases hj with hj | hj
        · exact hinv.2 j hj
        · exact ⟨rel, by rw [hj], by rw [hj]⟩

theorem forEach_inv {α σ : Type} (f : α → σ → Outcome σ) (I : σ → Prop)
    (hf : ∀ a s s', I s → f a s = Outcome.ok s' → I s') :
    ∀ (l : List α) (s s' : σ), I s → forEach f l s = Outcome.ok s' → I s' := by
  intro l
  induction l with
  | nil =>
    intro s s' hs h
    simp only [forEach, Outcome.ok.injEq] at h
    rw [← h]; exact hs
  | cons a as ih =>
    intro s s' hs h
    rw [forEach] at h
    rcases hfa : f a s with s1 | _ | _ | _ | _
    · simp only [hfa] at h
      exact ih s1 s' (hf a s s1 hs hfa) h
    all_goals simp [hfa] at h

theorem walk_inv (toPath fromPath : Path) (hfrom : HasSuffix fromPath = false) :
    ∀ (fuel : Nat) (path : Path) (info : Node) (st st' : WalkState),
      Visited fromPath path → WalkInv toPath fromPath st →
      walk toPath fromPath fuel path info st = Outcome.ok st' →
      WalkInv toPath fromPath st' := by
  intro fuel
  induction fuel with
  | zero => intro path info st st' _ _ h; simp [walk] at h
  | succ fuel ih =>
    intro path info st st' hp hinv h
    cases info with
    | file data =>
      simp only [walk] at h
      exact walkFn_inv _ _ _ _ _ _ hp hinv h
    | dir perm =>
      simp only [walk] at h
      rcases hfn : walkFn toPath fromPath st path (Node.dir perm) with st1 | _ | _ | _ | _
      · simp only [hfn] at h
        have h1 := walkFn_inv _ _ _ _ _ _ hp hinv hfn
        refine forEach_inv _ (WalkInv toPath fromPath) ?_ _ _ _ h1 h
        intro name s s' hs hstep
        obtain ⟨rel, hrel⟩ := Join_visited fromPath path name hfrom hp
        rcases hst : stat s.w.fs (Join path name) with _ | fileInfo
        · simp only [hst] at hstep
          exact walkFn_inv _ _ _ _ _ _ (Or.inr ⟨rel, hrel⟩) hs hstep
        · simp only [hst] at hstep
          exact ih _ _ _ _ (Or.inr ⟨rel, hrel⟩) hs hstep
      all_goals simp [hfn] at h

theorem queuedJobs_inv (fuel : Nat) (w : World) (toPath fromPath : Path) (jobs : List props)
    (hto : IsDirectory w.fs toPath = true) (hfrom : HasSuffix fromPath = false)
    (h : queuedJobs fuel w toPath fromPath = Outcome.ok jobs) :
    ∀ j ∈ jobs, ∃ rel, j.fromPath = fromPath ++ sep :: rel ∧ j.toPath = toPath ++ sep :: rel := by
  unfold queuedJobs at h
  rcases hw : Walk toPath fromPath fuel { w := w, files := [] } with st | _ | _ | _ | _
  · simp only [hw, Outcome.ok.injEq] at h
    have h0 : WalkInv toPath fromPath { w := w, files := [] } := ⟨hto, by simp⟩
    have hst : WalkInv toPath fromPath st := by
      unfold Walk at hw
      rcases hs : stat w.fs fromPath with _ | info
      · simp only [hs] at hw
        exact walkFn_inv _ _ _ _ _ _ (Or.inl rfl) h0 hw
      · simp only [hs] at hw
        exact walk_inv toPath fromPath hfrom fuel fromPath info _ st (Or.inl rfl) h0 hw
    rw [← h]
    exact hst.2
  all_goals simp [hw] at h

/-! ## Lemmas: the dispatcher -/

theorem Sched.step_inv (maxJobs : Int) (s s1 : Sched) (e : Event)
    (hinv : Sched.Inv maxJobs s) (h : s.step maxJobs e = some s1) : Sched.Inv maxJobs s1 := by
  obtain ⟨hc, hr⟩ := hinv
  cases e with
  | inc =>
    simp only [Sched.step] at h
    split at h
    · rename_i hg
      simp only [Bool.and_eq_true, Bool.not_eq_true', decide_eq_true_eq] at hg
      simp only [Option.some.injEq] at h
      subst h
      refine ⟨?_, hr⟩
      simp only [hg.1.2, Bool.false_eq_true, if_false] at hc
      simp [hc]
    · cases h
  | launch =>
    simp only [Sched.step] at h
    split at h
    · rename_i hg
      simp only [Bool.and_eq_true, Bool.not_eq_true', decide_eq_true_eq] at hg
      simp only [Option.some.injEq] at h
      subst h
      simp only [hg.1.2, if_true] at hc
      refine ⟨?_, ?_⟩
      · simp [hc]
      · have := hg.2
        simp only [Nat.cast_add, Nat.cast_one]
        omega
    · cases h
  | finish =>
    simp only [Sched.step] at h
    split at h
    · rename_i hg
      simp only [decide_eq_true_eq] at hg
      simp only [Option.some.injEq] at h
      subst h
      have hk : ((s.running - 1 : Nat) : Int) = (s.running : Int) - 1 := by omega
      refine ⟨?_, ?_⟩
      · show s.count - 1 = ((s.running - 1 : Nat) : Int) + _
        rw [hc, hk]
        ring
      · show ((s.running - 1 : Nat) : Int) ≤ maxJobs
        omega
    · cases h
  | drained =>
    simp only [Sched.step] at h
    split at h
    · simp only [Option.some.injEq] at h
      subst h
      exact ⟨hc, hr⟩
    · cases h

theorem Sched.run_inv (maxJobs : Int) :
    ∀ (es : List Event) (s s1 : Sched), Sched.Inv maxJobs s →
      Sched.run maxJobs s es = some s1 → Sched.Inv maxJobs s1 := by
  intro es
  induction es with
  | nil =>
    intro s s1 hinv h
    simp only [Sched.run, Option.some.injEq] at h
    rw [← h]; exact hinv
  | cons e es ih =>
    intro s s1 hinv h
    rw [Sched.run] at h
    rcases hs : s.step maxJobs e with _ | s2
    · simp [hs] at h
    · simp only [hs] at h
      exact ih s2 s1 (Sched.step_inv maxJobs s s2 e hinv hs) h

theorem Sched.init_inv (maxJobs : Int) (n : Nat) (h : 0 ≤ maxJobs) :
    Sched.Inv maxJobs (Sched.init n) := by
  simp [Sched.Inv, Sched.init, h]

theorem Sched.step_drainInv (maxJobs : Int) (s s1 : Sched) (e : Event)
    (hinv : Sched.DrainInv maxJobs s) (h : s.step maxJobs e = some s1) :
    Sched.DrainInv maxJobs s1 := by
  refine ⟨Sched.step_inv maxJobs s s1 e hinv.1 h, ?_⟩
  obtain ⟨⟨hc, hr⟩, hd⟩ := hinv
  cases e with
  | inc =>
    simp only [Sched.step] at h
    split at h
    · rename_i hg
      simp only [Bool.and_eq_true, Bool.not_eq_true', decide_eq_true_eq] at hg
      simp only [Option.some.injEq] at h
      subst h
      intro hret
      rw [hg.1.1] at hret
      cases hret
    · cases h
  | launch =>
    simp only [Sched.step] at h
    split at h
    · rename_i hg
      simp only [Bool.and_eq_true, Bool.not_eq_true', decide_eq_true_eq] at hg
      simp only [Option.some.injEq] at h
      subst h
      intro hret
      rw [hg.1.1] at hret
      cases hret
    · cases h
  | finish =>
    simp only [Sched.step] at h
    split at h
    · rename_i hg
      simp only [decide_eq_true_eq] at hg
      simp only [Option.some.injEq] at h
      subst h
      intro hret
      have := (hd hret).1
      omega
    · cases h
  | drained =>
    simp only [Sched.step] at h
    split at h
    · rename_i hg
      simp only [Bool.and_eq_true, Bool.not_eq_true', decide_eq_true_eq] at hg
      simp only [Option.some.injEq] at h
      subst h
      intro _
      obtain ⟨⟨⟨_, hadm⟩, hq⟩, hle⟩ := hg
      simp only [hadm, Bool.false_eq_true, if_false, add_zero] at hc
      have hrun : s.running = 0 := by omega
      have hcount : s.count = 0 := by omega
      exact ⟨hrun, hadm, hq, hcount⟩
    · cases h

theorem Sched.run_drainInv (maxJobs : Int) :
    ∀ (es : List Event) (s s1 : Sched), Sched.DrainInv maxJobs s →
      Sched.run maxJobs s es = some s1 → Sched.DrainInv maxJobs s1 := by
  intro es
  induction es with
  | nil =>
    intro s s1 hinv h
    simp only [Sched.run, Option.some.injEq] at h
    rw [← h]; exact hinv
  | cons e es ih =>
    intro s s1 hinv h
    rw [Sched.run] at h
    rcases hs : s.step maxJobs e with _ | s2
    · simp [hs] at h
    · simp only [hs] at h
      exact ih s2 s1 (Sched.step_drainInv maxJobs s s2 e hinv hs) h

/-- In directory mode the drain loop returns only with the counter at zero and no job
running, whatever the interleaving of the launch loop and the jobs. -/
theorem Sched.returned_count_zero (n : Nat) (maxJobs : Int) (es : List Event) (s : Sched)
    (hM : 0 ≤ maxJobs) (h : Sched.run maxJobs (Sched.init n) es = some s)
    (hret : s.returned = true) : s.count = 0 ∧ s.running = 0 ∧ s.queued = 0 := by
  have h0 : Sched.DrainInv maxJobs (Sched.init n) :=
    ⟨Sched.init_inv maxJobs n hM, fun hr => by simp [Sched.init] at hr⟩
  obtain ⟨h1, _, h3, h4⟩ := (Sched.run_drainInv maxJobs es _ s h0 h).2 hret
  exact ⟨h4, h1, h3⟩

/-! ## The claims -/

/-- Claim C1, as stated, fails.  With `C:\src` holding `a.txt` and `sub\b.txt` and `C:\dst` an
existing empty directory, the destination computed for `C:\src\a.txt` is not
`C:\dst\src\a.txt`: the walk queues the jobs `C:\dst\a.txt` and `C:\dst\sub\b.txt`, creates
`C:\dst\sub`, and the copy leaves the files directly under `C:\dst`. -/
theorem tree_copy_root_remap_counterexample :
    fixPath treeFs (P "C:\\dst") (P "C:\\src") (P "C:\\src" ++ sep :: P "a.txt")
      ≠ some (P "C:\\dst" ++ sep :: P "src" ++ sep :: P "a.txt") ∧
    queuedJobs 5 (start treeFs) (P "C:\\dst") (P "C:\\src") = Outcome.ok
      [{ toPath := P "C:\\dst\\a.txt", fromPath := P "C:\\src\\a.txt" },
       { toPath := P "C:\\dst\\sub\\b.txt", fromPath := P "C:\\src\\sub\\b.txt" }] ∧
    doCopy 5 (MaxJobs 1) (start treeFs) (P "C:\\dst") (P "C:\\src") = Outcome.ok
      { fs := treeFs ++
          [(P "C:\\dst\\sub", Node.dir 448),
           (P "C:\\dst\\a.txt", Node.file [104, 101, 108, 108, 111]),
           (P "C:\\dst\\sub\\b.txt", Node.file [])],
        count := 0,
        ops := [Op.mkdir (P "C:\\dst\\sub") 448,
                Op.opened (P "C:\\src\\a.txt"), Op.created (P "C:\\dst\\a.txt"),
                Op.wrote (P "C:\\dst\\a.txt") 5,
                Op.opened (P "C:\\src\\sub\\b.txt"), Op.created (P "C:\\dst\\sub\\b.txt")] } := by
  refine ⟨by decide, by decide, by decide⟩

/-- Claim C1, amended.  When `toPath` is an existing directory, `fixPath` maps every
descendant `fromPath\rel` of the source root to `toPath\rel` (the base name of the root is not
inserted), and, for a root that does not end with a separator, every job that the walk of
`doCopy` queues copies some `fromPath\rel` to `toPath\rel`. -/
theorem tree_copy_destinations (fuel : Nat) (w : World) (toPath fromPath : Path)
    (hto : IsDirectory w.fs toPath = true) (hfrom : HasSuffix fromPath = false) :
    (∀ rel, fixPath w.fs toPath fromPath (fromPath ++ sep :: rel) = some (toPath ++ sep :: rel)) ∧
    (∀ jobs, queuedJobs fuel w toPath fromPath = Outcome.ok jobs →
      ∀ j ∈ jobs, ∃ rel,
        j.fromPath = fromPath ++ sep :: rel ∧ j.toPath = toPath ++ sep :: rel) :=
  ⟨fun rel => fixPath_descendant w.fs toPath fromPath rel hto,
   fun jobs h => queuedJobs_inv fuel w toPath fromPath jobs hto hfrom h⟩

/-- The amended claim C1 on the tree `C:\src` and the existing directory `C:\dst`. -/
theorem tree_copy_destinations_witness :
    IsDirectory (start treeFs).fs (P "C:\\dst") = true ∧ HasSuffix (P "C:\\src") = false ∧
    (∀ rel, fixPath (start treeFs).fs (P "C:\\dst") (P "C:\\src") (P "C:\\src" ++ sep :: rel)
      = some (P "C:\\dst" ++ sep :: rel)) ∧
    (∀ jobs, queuedJobs 5 (start treeFs) (P "C:\\dst") (P "C:\\src") = Outcome.ok jobs →
      ∀ j ∈ jobs, ∃ rel,
        j.fromPath = P "C:\\src" ++ sep :: rel ∧ j.toPath = P "C:\\dst" ++ sep :: rel) :=
  ⟨by decide, by decide,
   tree_copy_destinations 5 (start treeFs) (P "C:\\dst") (P "C:\\src") (by decide) (by decide)⟩

/-- Claim C2.  When `toPath` is not an existing directory, `fixPath(to, from, from)` is `to`
itself, whatever `from` and `to` contain, and `doCopy` in file mode (the source exists, is not
a directory and differs from `to`) is `actualCopy(to, from)` with exactly that destination. -/
theorem fixPath_single_file_identity (fuel : Nat) (maxJobs : Int) (w : World)
    (toPath fromPath : Path) (hto : IsDirectory w.fs toPath = false) :
    fixPath w.fs toPath fromPath fromPath = some toPath ∧
    (Exists w.fs fromPath = true → IsDirectory w.fs fromPath = false → toPath ≠ fromPath →
      doCopy fuel maxJobs w toPath fromPath = actualCopy w toPath fromPath) := by
  refine ⟨fixPath_notDir _ _ _ _ hto, fun he hd hne => ?_⟩
  simp [doCopy, he, hd, hne, fixPath_notDir _ _ _ _ hto]

/-- Claim C2 on `C:\note.txt` and the new name `C:\backup\note_copy.txt`. -/
theorem fixPath_single_file_identity_witness :
    IsDirectory (start noteFs).fs (P "C:\\backup\\note_copy.txt") = false ∧
    fixPath (start noteFs).fs (P "C:\\backup\\note_copy.txt") (P "C:\\note.txt")
        (P "C:\\note.txt")
      = some (P "C:\\backup\\note_copy.txt") ∧
    doCopy 1 (MaxJobs 1) (start noteFs) (P "C:\\backup\\note_copy.txt") (P "C:\\note.txt")
      = actualCopy (start noteFs) (P "C:\\backup\\note_copy.txt") (P "C:\\note.txt") :=
  ⟨by decide,
   (fixPath_single_file_identity 1 (MaxJobs 1) (start noteFs) (P "C:\\backup\\note_copy.txt")
     (P "C:\\note.txt") (by decide)).1,
   (fixPath_single_file_identity 1 (MaxJobs 1) (start noteFs) (P "C:\\backup\\note_copy.txt")
     (P "C:\\note.txt") (by decide)).2 (by decide) (by decide) (by decide)⟩

/-- Claim C3.  When `toPath` is an existing directory that does not end with a separator and
the source is `parent\name` with no separator in `name`, remapping the root itself strips
`parent` and returns `toPath\name`; the result is `some`, so none of the slice expressions of
`fixPath` is out of range.  (The claim also asks for a non-empty `name`; the statement holds
without that.) -/
theorem fixPath_root_keeps_basename (fs : FS) (toPath parent name : Path)
    (hdir : IsDirectory fs toPath = true) (hsuf : HasSuffix toPath = false)
    (hsep : sep ∉ name) :
    fixPath fs toPath (parent ++ sep :: name) (parent ++ sep :: name)
      = some (toPath ++ sep :: name) := by
  simp [fixPath, hdir, hsuf, LastIndex_append parent name hsep, sliceTo_append,
    sliceFrom_append_sep]

/-- Claim C3 on the root `C:\note.txt` and the existing directory `C:\backup`. -/
theorem fixPath_root_keeps_basename_witness :
    IsDirectory noteFs (P "C:\\backup") = true ∧ HasSuffix (P "C:\\backup") = false ∧
    sep ∉ P "note.txt" ∧
    fixPath noteFs (P "C:\\backup") (P "C:" ++ sep :: P "note.txt") (P "C:" ++ sep :: P "note.txt")
      = some (P "C:\\backup" ++ sep :: P "note.txt") :=
  ⟨by decide, by decide, by decide,
   fixPath_root_keeps_basename noteFs (P "C:\\backup") (P "C:") (P "note.txt")
     (by decide) (by decide) (by decide)⟩

/-- Claim C4 fails on the code for a source root that ends with a separator.  For the drive
root `C:\`, the walked path `C:\x.txt` and the existing directory `D:\dst`, `fixPath` returns
`D:\dst\.txt`: the expression `from[len(fromBase)+1:]` skips the first byte of the name where
it means to skip a separator.  The walk of `doCopy("D:\dst", "C:\")` queues exactly that job. -/
theorem fixPath_drive_root_drops_a_byte :
    fixPath driveFs (P "D:\\dst") (P "C:\\") (P "C:\\x.txt") = some (P "D:\\dst\\.txt") ∧
    queuedJobs 5 (start driveFs) (P "D:\\dst") (P "C:\\") = Outcome.ok
      [{ toPath := P "D:\\dst\\.txt", fromPath := P "C:\\x.txt" }] := by
  refine ⟨by decide, by decide⟩

/-- Claim C5 fails on the code when `to` and `from` are different strings that name one
file.  Pasting `C:\note.txt` into the drive root `C:\` makes `fixPath` return `C:\\note.txt`
(the separator that ends `to`, then the separator that starts the suffix), a string different
from `C:\note.txt`, so the test `to == from` of `actualCopy` does not stop the copy:
`os.Create` truncates the one file, the first read is `io.EOF`, and the call returns normally
with the two bytes of the source gone. -/
theorem actualCopy_alias_truncates_source :
    stat noteFs (P "C:\\note.txt") = some (Node.file [104, 105]) ∧
    P "C:\\\\note.txt" ≠ P "C:\\note.txt" ∧
    fixPath noteFs (P "C:\\") (P "C:\\note.txt") (P "C:\\note.txt")
      = some (P "C:\\\\note.txt") ∧
    actualCopy (start noteFs) (P "C:\\\\note.txt") (P "C:\\note.txt") = Outcome.ok
      { fs := [(P "C:", Node.dir 511), (P "C:\\note.txt", Node.file []),
               (P "C:\\backup", Node.dir 493)],
        count := -1,
        ops := [Op.opened (P "C:\\note.txt"), Op.created (P "C:\\\\note.txt")] } ∧
    doCopy 1 (MaxJobs 1) (start noteFs) (P "C:\\") (P "C:\\note.txt") = Outcome.ok
      { fs := [(P "C:", Node.dir 511), (P "C:\\note.txt", Node.file []),
               (P "C:\\backup", Node.dir 493)],
        count := -1,
        ops := [Op.opened (P "C:\\note.txt"), Op.created (P "C:\\\\note.txt")] } := by
  refine ⟨by decide, by decide, by decide, by decide, by decide⟩

/-- Claim C6.  For every path `p` and every state, `doCopy(p, p)` returns normally and leaves
the file system, the job counter and the record of system calls as they were;
`actualCopy(p, p)` returns normally having made no system call and changed no file (it
lowers the counter by one). -/
theorem self_copy_is_noop (fuel : Nat) (maxJobs : Int) (w : World) (p : Path) :
    doCopy fuel maxJobs w p p = Outcome.ok w ∧
    actualCopy w p p = Outcome.ok { fs := w.fs, count := w.count - 1, ops := w.ops } := by
  refine ⟨?_, ?_⟩
  · simp [doCopy]
  · simp [actualCopy, World.dec]

/-- Claim C7.  When `fromPath` does not exist and `toPath` differs from it, `actualCopy`
returns normally, leaves the file system and the record of system calls unchanged and lowers
the job counter by exactly one; `doCopy` returns normally and changes nothing. -/
theorem missing_source_is_noop (fuel : Nat) (maxJobs : Int) (w : World) (toPath fromPath : Path)
    (hne : toPath ≠ fromPath) (hmiss : Exists w.fs fromPath = false) :
    actualCopy w toPath fromPath
      = Outcome.ok { fs := w.fs, count := w.count - 1, ops := w.ops } ∧
    doCopy fuel maxJobs w toPath fromPath = Outcome.ok w := by
  have hs : stat w.fs fromPath = none := by
    simpa [Exists] using hmiss
  refine ⟨?_, ?_⟩
  · simp [actualCopy, hne, osOpen, hs, World.dec]
  · simp [doCopy, hmiss]

/-- Claim C7 on the missing source `C:\gone.txt`. -/
theorem missing_source_is_noop_witness :
    P "C:\\backup\\gone.txt" ≠ P "C:\\gone.txt" ∧
    Exists (start noteFs).fs (P "C:\\gone.txt") = false ∧
    actualCopy (start noteFs) (P "C:\\backup\\gone.txt") (P "C:\\gone.txt")
      = Outcome.ok { fs := (start noteFs).fs, count := (start noteFs).count - 1,
                     ops := (start noteFs).ops } ∧
    doCopy 1 (MaxJobs 1) (start noteFs) (P "C:\\backup\\gone.txt") (P "C:\\gone.txt")
      = Outcome.ok (start noteFs) :=
  ⟨by decide, by decide,
   missing_source_is_noop 1 (MaxJobs 1) (start noteFs) (P "C:\\backup\\gone.txt")
     (P "C:\\gone.txt") (by decide) (by decide)⟩

/-- Claim C8 fails on the code in file mode.  `doCopy("C:\backup\note_copy.txt",
"C:\note.txt")`, started with the counter at zero on an existing file, returns normally with
the counter at `-1`: file mode calls `actualCopy`, which ends with `count.dec()`, without the
`count.inc()` that directory mode executes before each launch. -/
theorem doCopy_file_mode_counter_negative :
    Exists noteFs (P "C:\\note.txt") = true ∧ IsDirectory noteFs (P "C:\\note.txt") = false ∧
    doCopy 1 (MaxJobs 1) (start noteFs) (P "C:\\backup\\note_copy.txt") (P "C:\\note.txt")
      = Outcome.ok
        { fs := noteFs ++ [(P "C:\\backup\\note_copy.txt", Node.file [104, 105])],
          count := -1,
          ops := [Op.opened (P "C:\\note.txt"), Op.created (P "C:\\backup\\note_copy.txt"),
                  Op.wrote (P "C:\\backup\\note_copy.txt") 2] } := by
  refine ⟨by decide, by decide, by decide⟩

/-- Claim C9.  From the initial state with `n` queued jobs and the counter at zero, in every
state that the launch loop, the drain loop and the jobs can reach by their atomic steps, at
most `maxJobs` jobs are launched and not yet completed, for every `maxJobs ≥ 1`; the step
`finish` lowers the counter by one because every `actualCopy` that returns has lowered it by
exactly one. -/
theorem dispatcher_bounded_concurrency (n : Nat) (maxJobs : Int) (es : List Event) (s : Sched)
    (hM : 1 ≤ maxJobs) (h : Sched.run maxJobs (Sched.init n) es = some s) :
    (s.running : Int) ≤ maxJobs ∧
    (∀ (w w' : World) (toPath fromPath : Path),
      actualCopy w toPath fromPath = Outcome.ok w' → w'.count = w.count - 1) :=
  ⟨(Sched.run_inv maxJobs es _ s (Sched.init_inv maxJobs n (by omega)) h).2,
   fun w w' t f hc => actualCopy_count w w' t f hc⟩

/-- Claim C9 with three jobs and a ceiling of two: a run in which two jobs are in flight. -/
theorem dispatcher_bounded_concurrency_witness :
    (1 : Int) ≤ 2 ∧
    Sched.run 2 (Sched.init 3)
      [Event.inc, Event.launch, Event.inc, Event.launch, Event.inc, Event.finish, Event.launch]
      = some { queued := 0, admitted := false, running := 2, count := 2, returned := false } ∧
    ((2 : Nat) : Int) ≤ 2 :=
  ⟨by decide, by decide,
   (dispatcher_bounded_concurrency 3 2
      [Event.inc, Event.launch, Event.inc, Event.launch, Event.inc, Event.finish, Event.launch]
      { queued := 0, admitted := false, running := 2, count := 2, returned := false }
      (by decide) (by decide)).1⟩

/-- Claim C10 fails on the code when `toPath` is not an existing directory.  For `C:\src`
holding `a.txt` and `b.txt` and the missing `C:\new`, the walk of `doCopy` queues two jobs
with the same destination `C:\new` (`fixPath` returns its first argument unchanged); when
the two jobs run one after the other in queue order, as `doCopy` runs them here, the copy
leaves one file `C:\new` with the bytes of `b.txt`. -/
theorem tree_copy_to_missing_destination_collides :
    IsDirectory twoFilesFs (P "C:\\new") = false ∧
    queuedJobs 5 (start twoFilesFs) (P "C:\\new") (P "C:\\src") = Outcome.ok
      [{ toPath := P "C:\\new", fromPath := P "C:\\src\\a.txt" },
       { toPath := P "C:\\new", fromPath := P "C:\\src\\b.txt" }] ∧
    doCopy 5 (MaxJobs 1) (start twoFilesFs) (P "C:\\new") (P "C:\\src") = Outcome.ok
      { fs := twoFilesFs ++ [(P "C:\\new", Node.file [2])],
        count := 0,
        ops := [Op.opened (P "C:\\src\\a.txt"), Op.created (P "C:\\new"),
                Op.wrote (P "C:\\new") 1,
                Op.opened (P "C:\\src\\b.txt"), Op.created (P "C:\\new"),
                Op.wrote (P "C:\\new") 1] } := by
  refine ⟨by decide, by decide, by decide⟩

end FsCpy
